import Mathlib

/-!
# Verification of `asetool` (src/src/main.rs)

A shallow embedding of the sprite-sheet tool in `src/src/main.rs` and proofs
about it.  Machine integers are modelled as `Nat`; the `as u32` casts that the
code performs when allocating the sheet buffer and when passing blit
coordinates are made explicit as `% 2^32`; the `as i32` casts inside the
frame-count check are modelled by `i32cast`.  `usize` arithmetic is modelled
exactly (the quantities involved stay far below `2^64` for representable
inputs, and no claim concerns `usize` overflow).

External collaborators (the `image` and `asefile` crates, paths, and the
filesystem) are modelled from their documented behaviour at exactly the
narrow surface the code uses:
* `RgbaImage::new` allocates a zeroed (fully transparent) buffer;
* `image::imageops::replace(bottom, top, x, y)` copies `top`'s pixels over
  `bottom`'s starting at `(x, y)`, clipped to `bottom`'s bounds, with no
  blending;
* an `asefile::AsepriteFile` exposes `width`, `height`, `num_frames`,
  `tag_by_name` and per-frame RGBA images at the canvas size;
* saving to a path either succeeds or fails, modelled by an oracle predicate
  on paths.
-/

/-- One RGBA pixel, as four channel values. -/
abbrev Pixel : Type := Nat × Nat × Nat × Nat

/-- The fully transparent pixel `(0, 0, 0, 0)`. -/
def transparentPix : Pixel := (0, 0, 0, 0)

/-- An RGBA image: dimensions plus a pixel lookup.  `pix x y` is only
meaningful for `x < w`, `y < h`. -/
structure Img where
  w : Nat
  h : Nat
  pix : Nat → Nat → Pixel

/-- Model of `image::RgbaImage::new(w, h)`: a `w × h` buffer initialised to
all-zero bytes, i.e. every pixel fully transparent. -/
def RgbaImage.new (w h : Nat) : Img :=
  { w := w, h := h, pix := fun _ _ => transparentPix }

/-- Model of `image::imageops::replace(bottom, top, x, y)`: copy the pixels of
`top` onto `bottom` with its top-left corner at `(x, y)`, clipped to
`bottom`'s bounds; destination pixels are replaced, not blended. -/
def replace (bottom top : Img) (x y : Nat) : Img :=
  { bottom with
    pix := fun px py =>
      if px < bottom.w ∧ py < bottom.h ∧
         x ≤ px ∧ px < x + top.w ∧ y ≤ py ∧ py < y + top.h then
        top.pix (px - x) (py - y)
      else
        bottom.pix px py }

/-- Model of an `asefile` tag: an inclusive frame range, as returned by
`Tag::from_frame()` / `Tag::to_frame()` (both `u32`). -/
structure AseTag where
  fromFrame : Nat
  toFrame : Nat
deriving DecidableEq, Repr

/-- Model of a loaded `asefile::AsepriteFile`: canvas size, frame count, the
tag table, and the decoded RGBA pixels of each frame.  Every frame image has
the canvas dimensions. -/
structure AseDoc where
  width : Nat
  height : Nat
  num_frames : Nat
  tagsTable : List (String × AseTag)
  framePix : Nat → Nat → Nat → Pixel

/-- Model of `AsepriteFile::tag_by_name`. -/
def AseDoc.tag_by_name (doc : AseDoc) (name : String) : Option AseTag :=
  (doc.tagsTable.find? (fun p => p.1 = name)).map Prod.snd

/-- Model of `AsepriteFile::frame(i).image()`: an RGBA image at the canvas
size whose pixels are frame `i`'s. -/
def AseDoc.frameImage (doc : AseDoc) (i : Nat) : Img :=
  { w := doc.width, h := doc.height, pix := doc.framePix i }

/-- The value of a `u32` reinterpreted as an `i32` (an `as i32` cast). -/
def i32cast (n : Nat) : Int :=
  if n % 2 ^ 32 < 2 ^ 31 then ((n % 2 ^ 32 : Nat) : Int)
  else ((n % 2 ^ 32 : Nat) : Int) - 2 ^ 32

/-- Rust's `usize::div_ceil(self, rhs)`: `self / rhs`, rounded up; panics
(division by zero) when `rhs = 0` — the caller models the panic. -/
def usizeDivCeil (a b : Nat) : Nat :=
  a / b + if a % b = 0 then 0 else 1

/-- The errors an `Assemble::assemble` run can produce (the `anyhow` error
messages of src/src/main.rs, keeping the data they carry), plus the runtime
panic that `usize::div_ceil` raises on a zero divisor. -/
inductive AsmError
  | tagMissing (tag : String)
  | insufficientFrames (tag : String) (reportedHave : Int) (need : Nat)
  | panicDivByZero
  | saveError
deriving DecidableEq, Repr

/-- The parsed arguments of the `assemble` subcommand.  The two numeric
options are `Option<NonZeroU32>` in the code; a `some` value is therefore
positive and below `2^32`, which theorems carry as hypotheses. -/
structure AssembleArgs where
  tags : List String
  number_of_frames_from_each : Option Nat
  columns : Option Nat

/-- The inner `for i in 0..number_of_frames_from_each` loop of
`Assemble::assemble` (src/src/main.rs lines 115–129): blit frames
`tag.from + i` of `tag` into the sheet at cell `tag_count * K + i`.
Pixel coordinates are cast `as u32` at the `replace` call. -/
def blitTag (doc : AseDoc) (K cols : Nat) (tagCount : Nat) (t : AseTag)
    (sheet : Img) : Img :=
  (List.range K).foldl
    (fun s i =>
      let imageCount := tagCount * K + i
      let xImage := imageCount % cols
      let yImage := imageCount / cols
      let xPixel := xImage * doc.width
      let yPixel := yImage * doc.height
      replace s (doc.frameImage (t.fromFrame + i))
        (xPixel % 2 ^ 32) (yPixel % 2 ^ 32))
    sheet

/-- The `for (tag_count, tag) in self.tags.iter().enumerate()` loop of
`Assemble::assemble` (src/src/main.rs lines 100–130): resolve each tag,
validate its frame count with the `as i32` comparison, and blit its frames;
the first failure aborts.  The reported "have" value of the insufficient-
frames error is `to as i32 - from as i32`, exactly as in the source. -/
def assembleLoop (doc : AseDoc) (K cols : Nat) :
    Nat → List String → Img → Except AsmError Img
  | _, [], sheet => .ok sheet
  | tagCount, tag :: rest, sheet =>
    match doc.tag_by_name tag with
    | none => .error (.tagMissing tag)
    | some t =>
      if i32cast t.toFrame - i32cast t.fromFrame + 1 < i32cast K then
        .error (.insufficientFrames tag
          (i32cast t.toFrame - i32cast t.fromFrame) K)
      else
        assembleLoop doc K cols (tagCount + 1) rest (blitTag doc K cols tagCount t sheet)

/-- The per-tag frame count of src/src/main.rs lines 82–85:
`number_of_frames_from_each`, defaulting to 1. -/
def assembleK (a : AssembleArgs) : Nat :=
  a.number_of_frames_from_each.getD 1

/-- The `total_image_count` of src/src/main.rs line 87: `T · K`. -/
def totalImages (a : AssembleArgs) : Nat :=
  a.tags.length * assembleK a

/-- The `total_columns` of src/src/main.rs lines 89–92: `--columns`,
defaulting to the total image count (a single row). -/
def assembleCols (a : AssembleArgs) : Nat :=
  a.columns.getD (totalImages a)

/-- The layout arithmetic of `Assemble::assemble` (src/src/main.rs lines
94–98): the width and height actually passed to `RgbaImage::new`, i.e. the
`usize` products `total_columns * single_width` and
`total_image_count.div_ceil(total_columns) * single_height` cast `as u32`.
Meaningful only when the column count is nonzero (otherwise the code panics
before allocating). -/
def allocDims (a : AssembleArgs) (doc : AseDoc) : Nat × Nat :=
  ((assembleCols a * doc.width) % 2 ^ 32,
   (usizeDivCeil (totalImages a) (assembleCols a) * doc.height) % 2 ^ 32)

/-- Model of `Assemble::assemble` (src/src/main.rs lines 74–138) on a
successfully loaded document, up to the final save: compute the layout,
allocate the zeroed sheet, and run the tag loop.  When the column count is
zero (no `--columns` and no tags) `usize::div_ceil` panics with a division
by zero. -/
def Assemble.assemble (a : AssembleArgs) (doc : AseDoc) : Except AsmError Img :=
  if assembleCols a = 0 then .error .panicDivByZero
  else
    let sheet := RgbaImage.new (allocDims a doc).1 (allocDims a doc).2
    assembleLoop doc (assembleK a) (assembleCols a) 0 a.tags sheet

/-- The errors a `Convert::convert` run can produce. -/
inductive ConvError
  | wrongFrameCount (found : Nat)
  | saveError
deriving DecidableEq, Repr

/-- Model of `Convert::convert` (src/src/main.rs lines 48–70) on a
successfully loaded document: reject any frame count other than 1, else
encode frame 0 to the output path.  `saveOk` models whether the filesystem
write succeeds; the returned image is the one encoded. -/
def Convert.convert (doc : AseDoc) (saveOk : Bool) : Except ConvError Img :=
  if doc.num_frames ≠ 1 then .error (.wrongFrameCount doc.num_frames)
  else if saveOk then .ok (doc.frameImage 0)
  else .error .saveError

/-- The errors a `Separate::separate` run can produce. -/
inductive SepError
  | tagMissing (tag : String)
  | saveError (path : String)
deriving DecidableEq, Repr

/-- The output path `<output_directory>/<tag>.png` built at
src/src/main.rs line 156. -/
def sepPath (outputDirectory tag : String) : String :=
  outputDirectory ++ "/" ++ tag ++ ".png"

/-- Model of `Separate::separate` (src/src/main.rs lines 141–163) on a
successfully loaded document.  `saveOk` models which paths the filesystem
accepts.  Returns the list of files written (path and pixel content, in
order) together with the final result; a failure aborts the loop and earlier
files stay in the list — nothing removes them. -/
def Separate.separate (doc : AseDoc) (outputDirectory : String)
    (saveOk : String → Bool) :
    List String → List (String × Img) × Except SepError Unit
  | [] => ([], .ok ())
  | tag :: rest =>
    match doc.tag_by_name tag with
    | none => ([], .error (.tagMissing tag))
    | some t =>
      let path := sepPath outputDirectory tag
      if saveOk path then
        let res := Separate.separate doc outputDirectory saveOk rest
        ((path, doc.frameImage t.fromFrame) :: res.1, res.2)
      else
        ([], .error (.saveError path))

/-- Modelled from the clap derive attributes on the `tags` fields
(src/src/main.rs lines 32–33 and 44–45: `Vec<String>` with
`num_args = 1..`, `value_delimiter = ','`): the `-t, --tags` flag may occur
any number of times, each occurrence must carry at least one value, values
concatenate in user order, and omitting the flag altogether yields the empty
list (a derived `Vec` argument is not required). -/
def parseTagsArg (occurrences : List (List String)) :
    Except String (List String) :=
  if occurrences.any List.isEmpty then
    .error "a value is required for this argument but none was supplied"
  else
    .ok occurrences.flatten

/-! The layout plan: the blits `Assemble::assemble` performs, flattened into
one list of placements.  `assembleLoop_ok` below proves that a validating run
is exactly the composite of this plan over the blank sheet. -/

/-- One blit: source frame index and destination pixel offset (after the
`as u32` casts of src/src/main.rs lines 126–127). -/
structure Placement where
  src : Nat
  dx : Nat
  dy : Nat
deriving DecidableEq, Repr

/-- The placements of one tag: frames `t.from + i` for `i < K`, at cells
`tagCount * K + i`. -/
def planTag (doc : AseDoc) (K cols tagCount : Nat) (t : AseTag) :
    List Placement :=
  (List.range K).map fun i =>
    let imageCount := tagCount * K + i
    { src := t.fromFrame + i
      dx := (imageCount % cols * doc.width) % 2 ^ 32
      dy := (imageCount / cols * doc.height) % 2 ^ 32 }

/-- The placements of a resolved tag list, starting at tag index
`tagCount`. -/
def planTags (doc : AseDoc) (K cols : Nat) :
    Nat → List AseTag → List Placement
  | _, [] => []
  | tagCount, t :: rest =>
      planTag doc K cols tagCount t ++ planTags doc K cols (tagCount + 1) rest

/-- Apply a list of placements to a sheet, in order. -/
def composite (doc : AseDoc) (sheet : Img) (ps : List Placement) : Img :=
  ps.foldl (fun s p => replace s (doc.frameImage p.src) p.dx p.dy) sheet

/-- Validity of an assemble invocation, resolving `a.tags` to the tag list
`ts`: every tag name resolves, the column count is positive, and every tag
has inclusive length at least `K` (with the `u32` values in the
`i32`-representable range, as they are for any real Aseprite file). -/
def ValidAssemble (a : AssembleArgs) (doc : AseDoc) (ts : List AseTag) : Prop :=
  List.Forall₂ (fun name t => doc.tag_by_name name = some t) a.tags ts ∧
  0 < assembleCols a ∧
  assembleK a < 2 ^ 31 ∧
  ∀ t ∈ ts, t.fromFrame ≤ t.toFrame ∧ t.toFrame < 2 ^ 31 ∧
    assembleK a ≤ t.toFrame - t.fromFrame + 1

/-- Placement `p` writes pixel `(x, y)` of a sheet with dimensions
`(sw, sh)`: the pixel is in bounds and inside the `doc.width × doc.height`
region blitted at `(p.dx, p.dy)` — exactly the guard of `replace`. -/
def covers (doc : AseDoc) (sw sh : Nat) (p : Placement) (x y : Nat) : Prop :=
  x < sw ∧ y < sh ∧ p.dx ≤ x ∧ x < p.dx + doc.width ∧
    p.dy ≤ y ∧ y < p.dy + doc.height

/-! Sample documents used to instantiate the theorems on concrete inputs. -/

/-- A four-frame document with tags `walk = [0, 3]` and `jump = [2, 2]`
(the scenario of spec §8 S2–S4); every (frame, position) pair gets a
distinct pixel. -/
def sampleDoc : AseDoc :=
  { width := 3
    height := 2
    num_frames := 4
    tagsTable := [("walk", ⟨0, 3⟩), ("jump", ⟨2, 2⟩)]
    framePix := fun i x y => (i, x, y, 255) }

/-- A 2×1-canvas document with the single one-frame tag `wide`, used with a
huge `--columns` value to exhibit the `as u32` wrap of the sheet width. -/
def wideDoc : AseDoc :=
  { width := 2
    height := 1
    num_frames := 1
    tagsTable := [("wide", ⟨0, 0⟩)]
    framePix := fun i x y => (i, x, y, 255) }

/-- The `assemble` invocation `-t wide -c 2147483648`: `2^31` columns on a
width-2 canvas, so `total_columns * single_width = 2^32` wraps to 0. -/
def wideArgs : AssembleArgs := ⟨["wide"], none, some (2 ^ 31)⟩

/-- A single-frame document whose only tag is `a = [0, 0]`. -/
def oneTagDoc : AseDoc :=
  { width := 1
    height := 1
    num_frames := 1
    tagsTable := [("a", ⟨0, 0⟩)]
    framePix := fun i x y => (i, x, y, 255) }

/-- A single-frame document with no tags at all. -/
def emptyDoc : AseDoc :=
  { width := 1
    height := 1
    num_frames := 1
    tagsTable := []
    framePix := fun i x y => (i, x, y, 255) }

/-! Basic lemmas: dimensions are preserved by blitting, and the nested loops
of `Assemble::assemble` compute the composite of the flattened plan. -/

lemma replace_w (b t : Img) (x y : Nat) : (replace b t x y).w = b.w := rfl

lemma replace_h (b t : Img) (x y : Nat) : (replace b t x y).h = b.h := rfl

lemma composite_nil (doc : AseDoc) (s : Img) : composite doc s [] = s := rfl

lemma composite_cons (doc : AseDoc) (s : Img) (p : Placement) (ps : List Placement) :
    composite doc s (p :: ps) =
      composite doc (replace s (doc.frameImage p.src) p.dx p.dy) ps := rfl

lemma composite_append (doc : AseDoc) (s : Img) (l₁ l₂ : List Placement) :
    composite doc s (l₁ ++ l₂) = composite doc (composite doc s l₁) l₂ := by
  simp [composite, List.foldl_append]

lemma composite_w (doc : AseDoc) (ps : List Placement) :
    ∀ s : Img, (composite doc s ps).w = s.w := by
  induction ps with
  | nil => intro s; rfl
  | cons p ps ih => intro s; rw [composite_cons, ih]; rfl

lemma composite_h (doc : AseDoc) (ps : List Placement) :
    ∀ s : Img, (composite doc s ps).h = s.h := by
  induction ps with
  | nil => intro s; rfl
  | cons p ps ih => intro s; rw [composite_cons, ih]; rfl

lemma blitTag_eq_composite (doc : AseDoc) (K cols tagCount : Nat) (t : AseTag)
    (s : Img) :
    blitTag doc K cols tagCount t s =
      composite doc s (planTag doc K cols tagCount t) := by
  simp only [blitTag, planTag, composite, List.foldl_map]

lemma i32cast_of_lt (n : Nat) (h : n < 2 ^ 31) : i32cast n = (n : Int) := by
  have h32 : n < 2 ^ 32 := lt_trans h (by norm_num)
  unfold i32cast
  rw [Nat.mod_eq_of_lt h32, if_pos h]

/-- The `as i32` frame-count comparison of src/src/main.rs lines 105–107
does not fire when the tag's inclusive length is at least `K` (for values
below `2^31`, where the casts are value-preserving). -/
lemma check_passes (K : Nat) (t : AseTag) (hK : K < 2 ^ 31)
    (hft : t.fromFrame ≤ t.toFrame) (hto : t.toFrame < 2 ^ 31)
    (hL : K ≤ t.toFrame - t.fromFrame + 1) :
    ¬ (i32cast t.toFrame - i32cast t.fromFrame + 1 < i32cast K) := by
  have hf : t.fromFrame < 2 ^ 31 := lt_of_le_of_lt hft hto
  rw [i32cast_of_lt _ hK, i32cast_of_lt _ hto, i32cast_of_lt _ hf]
  omega

/-- A run of the tag loop in which every tag resolves and validates computes
exactly the composite of the flattened plan. -/
lemma assembleLoop_ok (doc : AseDoc) (K cols : Nat) (hK : K < 2 ^ 31)
    (names : List String) (ts : List AseTag)
    (hres : List.Forall₂ (fun name t => doc.tag_by_name name = some t) names ts)
    (hval : ∀ t ∈ ts, t.fromFrame ≤ t.toFrame ∧ t.toFrame < 2 ^ 31 ∧
      K ≤ t.toFrame - t.fromFrame + 1) :
    ∀ (tagCount : Nat) (s : Img),
      assembleLoop doc K cols tagCount names s =
        .ok (composite doc s (planTags doc K cols tagCount ts)) := by
  induction hres with
  | nil => intro tagCount s; rfl
  | @cons name t names' ts' hname hrest ih =>
    intro tagCount s
    obtain ⟨hft, hto, hL⟩ := hval t (List.mem_cons_self t ts')
    have hval' : ∀ u ∈ ts', u.fromFrame ≤ u.toFrame ∧ u.toFrame < 2 ^ 31 ∧
        K ≤ u.toFrame - u.fromFrame + 1 :=
      fun u hu => hval u (List.mem_cons_of_mem t hu)
    rw [assembleLoop]
    simp only [hname]
    rw [if_neg (check_passes K t hK hft hto hL)]
    rw [ih hval' (tagCount + 1) (blitTag doc K cols tagCount t s)]
    rw [blitTag_eq_composite, planTags, composite_append]

/-- A valid assemble invocation returns the composite of the plan over the
freshly allocated transparent sheet. -/
lemma assemble_ok (a : AssembleArgs) (doc : AseDoc) (ts : List AseTag)
    (hva : ValidAssemble a doc ts) :
    Assemble.assemble a doc =
      .ok (composite doc
        (RgbaImage.new (allocDims a doc).1 (allocDims a doc).2)
        (planTags doc (assembleK a) (assembleCols a) 0 ts)) := by
  obtain ⟨hres, hcols, hK, hval⟩ := hva
  rw [Assemble.assemble, if_neg (Nat.pos_iff_ne_zero.mp hcols)]
  exact assembleLoop_ok doc (assembleK a) (assembleCols a) hK a.tags ts hres hval 0 _

/-- On any successful run the sheet has exactly the allocated dimensions:
the loop only blits, never resizes. -/
lemma assembleLoop_dims (doc : AseDoc) (K cols : Nat) :
    ∀ (names : List String) (tagCount : Nat) (s s' : Img),
      assembleLoop doc K cols tagCount names s = .ok s' →
      s'.w = s.w ∧ s'.h = s.h := by
  intro names
  induction names with
  | nil =>
    intro tagCount s s' h
    rw [assembleLoop] at h
    cases h
    exact ⟨rfl, rfl⟩
  | cons name rest ih =>
    intro tagCount s s' h
    rw [assembleLoop] at h
    cases hname : doc.tag_by_name name with
    | none => rw [hname] at h; cases h
    | some t =>
      simp only [hname] at h
      by_cases hchk : i32cast t.toFrame - i32cast t.fromFrame + 1 < i32cast K
      · rw [if_pos hchk] at h; cases h
      · rw [if_neg hchk] at h
        have := ih (tagCount + 1) (blitTag doc K cols tagCount t s) s' h
        rwa [blitTag_eq_composite, composite_w, composite_h] at this

/-! Indexing the flattened plan: placement `i` is frame
`ts[i / K].from + i % K` at cell `(i % cols, i / cols)`. -/

lemma planTag_length (doc : AseDoc) (K cols tagCount : Nat) (t : AseTag) :
    (planTag doc K cols tagCount t).length = K := by
  simp [planTag]

lemma planTags_length (doc : AseDoc) (K cols : Nat) :
    ∀ (ts : List AseTag) (tagCount : Nat),
      (planTags doc K cols tagCount ts).length = ts.length * K := by
  intro ts
  induction ts with
  | nil => intro tagCount; simp [planTags]
  | cons t rest ih =>
    intro tagCount
    rw [planTags, List.length_append, planTag_length, ih, List.length_cons,
      Nat.succ_mul]
    omega

lemma planTags_get? (doc : AseDoc) (K cols : Nat) :
    ∀ (ts : List AseTag) (tagCount i : Nat), i < ts.length * K →
      ∀ t : AseTag, ts.get? (i / K) = some t →
      (planTags doc K cols tagCount ts).get? i =
        some ⟨t.fromFrame + i % K,
              ((tagCount * K + i) % cols * doc.width) % 2 ^ 32,
              ((tagCount * K + i) / cols * doc.height) % 2 ^ 32⟩ := by
  intro ts
  induction ts with
  | nil => intro tagCount i hi; simp at hi
  | cons t0 rest ih =>
    intro tagCount i hi t hget
    rw [planTags]
    by_cases hiK : i < K
    · have hdiv : i / K = 0 := Nat.div_eq_of_lt hiK
      rw [hdiv] at hget
      simp only [List.get?_cons_zero, Option.some.injEq] at hget
      subst hget
      rw [List.get?_append (by rw [planTag_length]; exact hiK)]
      have hmod : i % K = i := Nat.mod_eq_of_lt hiK
      rw [hmod]
      simp only [planTag, List.get?_map, List.get?_range hiK]
      rfl
    · push_neg at hiK
      have hK0 : 0 < K := by
        rcases Nat.eq_zero_or_pos K with h | h
        · subst h; omega
        · exact h
      rw [List.get?_append_right (by rw [planTag_length]; exact hiK)]
      rw [planTag_length]
      have hlen : (t0 :: rest).length * K = rest.length * K + K := by
        rw [List.length_cons, Nat.succ_mul]
      have hi' : i - K < rest.length * K := by omega
      have hget' : rest.get? ((i - K) / K) = some t := by
        have hq : i / K = (i - K) / K + 1 := by
          conv_lhs => rw [show i = (i - K) + K by omega]
          rw [Nat.add_div_right _ hK0]
        rw [hq] at hget
        simpa using hget
      rw [ih (tagCount + 1) (i - K) hi' t hget']
      have e1 : (tagCount + 1) * K + (i - K) = tagCount * K + i := by
        rw [Nat.succ_mul]; omega
      have e2 : (i - K) % K = i % K := by
        conv_rhs => rw [show i = (i - K) + K by omega]
        rw [Nat.add_mod_right]
      rw [e1, e2]

lemma div_lt_usizeDivCeil (i M cols : Nat) (hcols : 0 < cols) (hi : i < M) :
    i / cols < usizeDivCeil M cols := by
  unfold usizeDivCeil
  by_cases h : M % cols = 0
  · rw [if_pos h]
    have := Nat.div_lt_div_of_lt_of_dvd (Nat.dvd_of_mod_eq_zero h) hi
    omega
  · rw [if_neg h]
    have h2 : i / cols ≤ M / cols := Nat.div_le_div_right (Nat.le_of_lt hi)
    omega

/-- When neither sheet dimension wraps, placement `i`'s destination offsets
carry no `% 2^32` either. -/
lemma planTags_get?_zero (doc : AseDoc) (K cols : Nat) (ts : List AseTag)
    (hcols : 0 < cols)
    (hW : cols * doc.width < 2 ^ 32)
    (hH : usizeDivCeil (ts.length * K) cols * doc.height < 2 ^ 32)
    (i : Nat) (hi : i < ts.length * K)
    (t : AseTag) (hget : ts.get? (i / K) = some t) :
    (planTags doc K cols 0 ts).get? i =
      some ⟨t.fromFrame + i % K, i % cols * doc.width,
        i / cols * doc.height⟩ := by
  have h := planTags_get? doc K cols ts 0 i hi t hget
  rw [Nat.zero_mul, Nat.zero_add] at h
  rw [h]
  have hx : i % cols * doc.width < 2 ^ 32 :=
    lt_of_le_of_lt
      (Nat.mul_le_mul_right _ (Nat.le_of_lt (Nat.mod_lt i hcols))) hW
  have hy : i / cols * doc.height < 2 ^ 32 :=
    lt_of_le_of_lt
      (Nat.mul_le_mul_right _
        (Nat.le_of_lt (div_lt_usizeDivCeil i _ cols hcols hi))) hH
  rw [Nat.mod_eq_of_lt hx, Nat.mod_eq_of_lt hy]

/-! Pointwise reasoning about compositing: which placement wrote a pixel. -/

lemma replace_pix_of_not_covers (doc : AseDoc) (s : Img) (p : Placement)
    (x y : Nat) (h : ¬ covers doc s.w s.h p x y) :
    (replace s (doc.frameImage p.src) p.dx p.dy).pix x y = s.pix x y := by
  simp only [replace, AseDoc.frameImage]
  rw [if_neg]
  exact fun hc => h hc

lemma replace_pix_of_covers (doc : AseDoc) (s : Img) (p : Placement)
    (x y : Nat) (h : covers doc s.w s.h p x y) :
    (replace s (doc.frameImage p.src) p.dx p.dy).pix x y =
      doc.framePix p.src (x - p.dx) (y - p.dy) := by
  simp only [replace, AseDoc.frameImage]
  rw [if_pos]
  exact h

lemma composite_pix_of_not_covers (doc : AseDoc) (x y : Nat) :
    ∀ (ps : List Placement) (s : Img),
      (∀ p ∈ ps, ¬ covers doc s.w s.h p x y) →
      (composite doc s ps).pix x y = s.pix x y := by
  intro ps
  induction ps with
  | nil => intro s _; rfl
  | cons p ps ih =>
    intro s h
    rw [composite_cons]
    rw [ih (replace s (doc.frameImage p.src) p.dx p.dy)
      (fun q hq => h q (List.mem_cons_of_mem p hq))]
    exact replace_pix_of_not_covers doc s p x y (h p (List.mem_cons_self p ps))

/-- Last-writer lemma: if placement `p` covers `(x, y)` and no later
placement does, the final pixel is `p`'s source pixel. -/
lemma composite_pix_last_writer (doc : AseDoc) (s : Img)
    (l₁ : List Placement) (p : Placement) (l₂ : List Placement) (x y : Nat)
    (hc : covers doc s.w s.h p x y)
    (hnot : ∀ q ∈ l₂, ¬ covers doc s.w s.h q x y) :
    (composite doc s (l₁ ++ p :: l₂)).pix x y =
      doc.framePix p.src (x - p.dx) (y - p.dy) := by
  rw [composite_append, composite_cons]
  have hw : (composite doc s l₁).w = s.w := composite_w doc l₁ s
  have hh : (composite doc s l₁).h = s.h := composite_h doc l₁ s
  have hc' : covers doc (composite doc s l₁).w (composite doc s l₁).h p x y := by
    rwa [hw, hh]
  rw [composite_pix_of_not_covers doc x y l₂ _ (by
    intro q hq
    have := hnot q hq
    simpa [replace_w, replace_h, hw, hh] using this)]
  exact replace_pix_of_covers doc (composite doc s l₁) p x y hc'

/-- Two pixel intervals of width `W` based at distinct multiples of `W` are
disjoint: a pixel in cell `c₂`'s span that also lies in cell `c₁`'s span
forces `c₁ = c₂`. -/
lemma cell_coord_eq (W c₁ c₂ a : Nat) (ha : a < W)
    (h₁ : c₁ * W ≤ c₂ * W + a) (h₂ : c₂ * W + a < c₁ * W + W) : c₁ = c₂ := by
  have l₁ : c₁ * W < (c₂ + 1) * W := by rw [Nat.succ_mul]; omega
  have l₂ : c₂ * W < (c₁ + 1) * W := by rw [Nat.succ_mul]; omega
  have g₁ : c₁ < c₂ + 1 := lt_of_mul_lt_mul_right l₁ (Nat.zero_le W)
  have g₂ : c₂ < c₁ + 1 := lt_of_mul_lt_mul_right l₂ (Nat.zero_le W)
  omega

/-- Distinct placement indices occupy disjoint cells: placement `k` never
covers a pixel lying inside placement `j`'s cell. -/
lemma not_covers_of_ne (doc : AseDoc) (sw sh cols : Nat) (j k : Nat)
    (hjk : j ≠ k) (n : Nat) (u v : Nat) (hu : u < doc.width)
    (hv : v < doc.height) :
    ¬ covers doc sw sh ⟨n, k % cols * doc.width, k / cols * doc.height⟩
        (j % cols * doc.width + u) (j / cols * doc.height + v) := by
  rintro ⟨-, -, h₁, h₂, h₃, h₄⟩
  simp only at h₁ h₂ h₃ h₄
  have e₁ : k % cols = j % cols := cell_coord_eq doc.width _ _ u hu h₁ h₂
  have e₂ : k / cols = j / cols := cell_coord_eq doc.height _ _ v hv h₃ h₄
  exact hjk (by
    rw [← Nat.div_add_mod j cols, ← Nat.div_add_mod k cols, e₁, e₂])

/-- Splitting a list at a known index. -/
lemma list_split_at (l : List Placement) (j : Nat) (p : Placement)
    (h : l.get? j = some p) :
    l = l.take j ++ p :: l.drop (j + 1) := by
  have hj : j < l.length := (List.get?_eq_some.mp h).1
  conv_lhs => rw [← List.take_append_drop j l]
  rw [List.drop_eq_getElem_cons hj]
  have : l[j] = p := by
    have := List.get?_eq_getElem? l j
    rw [h, List.getElem?_eq_getElem hj] at this
    exact (Option.some.injEq _ _ ▸ this.symm)
  rw [this]

/-- Any entry of the zero-based plan is placement `k` for some `k < T·K`,
with the row-major destination offsets (no wrap under the size bounds). -/
lemma plan_coords (doc : AseDoc) (K cols : Nat) (ts : List AseTag)
    (hcols : 0 < cols)
    (hW : cols * doc.width < 2 ^ 32)
    (hH : usizeDivCeil (ts.length * K) cols * doc.height < 2 ^ 32)
    (k : Nat) (q : Placement)
    (hq : (planTags doc K cols 0 ts).get? k = some q) :
    k < ts.length * K ∧ q.dx = k % cols * doc.width ∧
      q.dy = k / cols * doc.height := by
  have hk : k < ts.length * K := by
    have := (List.get?_eq_some.mp hq).1
    rwa [planTags_length] at this
  have hK0 : 0 < K := by
    rcases Nat.eq_zero_or_pos K with h | h
    · subst h; omega
    · exact h
  have htK : k / K < ts.length := (Nat.div_lt_iff_lt_mul hK0).mpr hk
  have hts : ts.get? (k / K) = some (ts.get ⟨k / K, htK⟩) := List.get?_eq_get htK
  have h := planTags_get?_zero doc K cols ts hcols hW hH k hk _ hts
  rw [hq] at h
  have h' := Option.some.injEq _ _ ▸ h
  refine ⟨hk, ?_, ?_⟩
  · rw [h']
  · rw [h']

/-- A successful assemble run yields a sheet of exactly the allocated
dimensions. -/
lemma assemble_ok_dims (a : AssembleArgs) (doc : AseDoc) (s : Img)
    (h : Assemble.assemble a doc = .ok s) :
    s.w = (allocDims a doc).1 ∧ s.h = (allocDims a doc).2 := by
  rw [Assemble.assemble] at h
  by_cases h0 : assembleCols a = 0
  · rw [if_pos h0] at h; cases h
  · rw [if_neg h0] at h
    exact assembleLoop_dims doc (assembleK a) (assembleCols a) a.tags 0 _ s h

/-- C1: for every valid assemble invocation (all tags resolved, each with
inclusive length ≥ K, cols ≥ 1, and sheet dimensions in `u32` range), the
run blits exactly the placements of the flattened plan over the fresh
transparent sheet, and the `i`-th placement, for every `i < T·K`, reads
source frame `tags[i / K].from + i % K` and is placed at destination pixel
`((i % cols)·W, (i / cols)·H)` — row-major cell order. -/
theorem assemble_placement_rowMajor
    (a : AssembleArgs) (doc : AseDoc) (ts : List AseTag)
    (hva : ValidAssemble a doc ts)
    (hW : assembleCols a * doc.width < 2 ^ 32)
    (hH : usizeDivCeil (totalImages a) (assembleCols a) * doc.height < 2 ^ 32)
    (i : Nat) (hi : i < totalImages a)
    (t : AseTag) (ht : ts.get? (i / assembleK a) = some t) :
    Assemble.assemble a doc =
      .ok (composite doc
        (RgbaImage.new (allocDims a doc).1 (allocDims a doc).2)
        (planTags doc (assembleK a) (assembleCols a) 0 ts)) ∧
    (planTags doc (assembleK a) (assembleCols a) 0 ts).get? i =
      some ⟨t.fromFrame + i % assembleK a,
        i % assembleCols a * doc.width,
        i / assembleCols a * doc.height⟩ := by
  refine ⟨assemble_ok a doc ts hva, ?_⟩
  obtain ⟨hres, hcols, hK, hval⟩ := hva
  have hlen : a.tags.length = ts.length := hres.length_eq
  have hM : ts.length * assembleK a = totalImages a := by
    rw [totalImages, hlen]
  exact planTags_get?_zero doc (assembleK a) (assembleCols a) ts hcols hW
    (by rw [hM]; exact hH) i (by rw [hM]; exact hi) t ht

theorem assemble_placement_rowMajor_witness :
    (planTags sampleDoc 2 2 0 [⟨0, 3⟩]).get? 1 =
      some ⟨1, 3, 0⟩ :=
  (assemble_placement_rowMajor ⟨["walk"], some 2, some 2⟩ sampleDoc
    [⟨0, 3⟩]
    ⟨List.Forall₂.cons rfl List.Forall₂.nil, by decide, by decide, by decide⟩
    (by decide) (by decide) 1 (by decide) ⟨0, 3⟩ rfl).2

/-- C3: after a valid assemble run, every placement's sheet region holds the
source frame's pixels exactly — the blit is a destination-replacing copy,
with no blending. -/
theorem assemble_pixel_fidelity
    (a : AssembleArgs) (doc : AseDoc) (ts : List AseTag)
    (hva : ValidAssemble a doc ts)
    (hW : assembleCols a * doc.width < 2 ^ 32)
    (hH : usizeDivCeil (totalImages a) (assembleCols a) * doc.height < 2 ^ 32)
    (j : Nat) (hj : j < totalImages a)
    (t : AseTag) (ht : ts.get? (j / assembleK a) = some t)
    (u v : Nat) (hu : u < doc.width) (hv : v < doc.height) :
    ∃ sheet, Assemble.assemble a doc = .ok sheet ∧
      sheet.pix (j % assembleCols a * doc.width + u)
        (j / assembleCols a * doc.height + v) =
        doc.framePix (t.fromFrame + j % assembleK a) u v := by
  have hok := assemble_ok a doc ts hva
  obtain ⟨hres, hcols, hK, hval⟩ := hva
  have hlen : a.tags.length = ts.length := hres.length_eq
  have hM : ts.length * assembleK a = totalImages a := by
    rw [totalImages, hlen]
  have hHts : usizeDivCeil (ts.length * assembleK a) (assembleCols a) *
      doc.height < 2 ^ 32 := by rw [hM]; exact hH
  have hj' : j < ts.length * assembleK a := by rw [hM]; exact hj
  have hpj := planTags_get?_zero doc (assembleK a) (assembleCols a) ts hcols
    hW hHts j hj' t ht
  refine ⟨_, hok, ?_⟩
  have hsplit := list_split_at
    (planTags doc (assembleK a) (assembleCols a) 0 ts) j _ hpj
  -- the blank sheet and its dimensions
  have hbw : (RgbaImage.new (allocDims a doc).1 (allocDims a doc).2).w =
      assembleCols a * doc.width := by
    show (allocDims a doc).1 = _
    rw [allocDims]
    exact Nat.mod_eq_of_lt hW
  have hbh : (RgbaImage.new (allocDims a doc).1 (allocDims a doc).2).h =
      usizeDivCeil (totalImages a) (assembleCols a) * doc.height := by
    show (allocDims a doc).2 = _
    rw [allocDims]
    exact Nat.mod_eq_of_lt hH
  -- the written pixel is inside placement j's region and the sheet
  have hxcell : j % assembleCols a < assembleCols a := Nat.mod_lt j hcols
  have hycell : j / assembleCols a <
      usizeDivCeil (totalImages a) (assembleCols a) :=
    div_lt_usizeDivCeil j (totalImages a) (assembleCols a) hcols hj
  have hx : j % assembleCols a * doc.width + u <
      assembleCols a * doc.width := by
    have h1 : (j % assembleCols a + 1) * doc.width ≤
        assembleCols a * doc.width := Nat.mul_le_mul_right _ hxcell
    rw [Nat.succ_mul] at h1
    omega
  have hy : j / assembleCols a * doc.height + v <
      usizeDivCeil (totalImages a) (assembleCols a) * doc.height := by
    have h1 : (j / assembleCols a + 1) * doc.height ≤
        usizeDivCeil (totalImages a) (assembleCols a) * doc.height :=
      Nat.mul_le_mul_right _ hycell
    rw [Nat.succ_mul] at h1
    omega
  have hc : covers doc
      (RgbaImage.new (allocDims a doc).1 (allocDims a doc).2).w
      (RgbaImage.new (allocDims a doc).1 (allocDims a doc).2).h
      ⟨t.fromFrame + j % assembleK a,
        j % assembleCols a * doc.width, j / assembleCols a * doc.height⟩
      (j % assembleCols a * doc.width + u)
      (j / assembleCols a * doc.height + v) := by
    rw [hbw, hbh]
    exact ⟨hx, hy, Nat.le_add_right _ _, by simp; omega,
      Nat.le_add_right _ _, by simp; omega⟩
  -- later placements occupy different cells and never touch the pixel
  have hnot : ∀ q ∈ (planTags doc (assembleK a) (assembleCols a) 0 ts).drop
      (j + 1),
      ¬ covers doc
        (RgbaImage.new (allocDims a doc).1 (allocDims a doc).2).w
        (RgbaImage.new (allocDims a doc).1 (allocDims a doc).2).h q
        (j % assembleCols a * doc.width + u)
        (j / assembleCols a * doc.height + v) := by
    intro q hq
    obtain ⟨m, hm⟩ := List.mem_iff_get?.mp hq
    rw [List.get?_drop] at hm
    obtain ⟨hkM, hdx, hdy⟩ := plan_coords doc (assembleK a) (assembleCols a)
      ts hcols hW hHts (j + 1 + m) q hm
    intro hcov
    refine not_covers_of_ne doc
      (RgbaImage.new (allocDims a doc).1 (allocDims a doc).2).w
      (RgbaImage.new (allocDims a doc).1 (allocDims a doc).2).h
      (assembleCols a) j (j + 1 + m) (by omega) q.src u v hu hv ?_
    have hqeq : q = ⟨q.src, (j + 1 + m) % assembleCols a * doc.width,
        (j + 1 + m) / assembleCols a * doc.height⟩ := by
      cases q
      simp only at hdx hdy
      rw [hdx, hdy]
    rw [← hqeq]
    exact hcov
  have hmain := composite_pix_last_writer doc
    (RgbaImage.new (allocDims a doc).1 (allocDims a doc).2)
    ((planTags doc (assembleK a) (assembleCols a) 0 ts).take j)
    ⟨t.fromFrame + j % assembleK a,
      j % assembleCols a * doc.width, j / assembleCols a * doc.height⟩
    ((planTags doc (assembleK a) (assembleCols a) 0 ts).drop (j + 1))
    (j % assembleCols a * doc.width + u)
    (j / assembleCols a * doc.height + v) hc hnot
  rw [← hsplit] at hmain
  rw [hmain]
  simp [Nat.add_sub_cancel_left]

theorem assemble_pixel_fidelity_witness :
    ∃ sheet,
      Assemble.assemble ⟨["walk"], some 2, some 2⟩ sampleDoc = .ok sheet ∧
      sheet.pix (1 % 2 * 3 + 1) (1 / 2 * 2 + 0) =
        sampleDoc.framePix (0 + 1 % 2) 1 0 :=
  assemble_pixel_fidelity ⟨["walk"], some 2, some 2⟩ sampleDoc [⟨0, 3⟩]
    ⟨List.Forall₂.cons rfl List.Forall₂.nil, by decide, by decide, by decide⟩
    (by decide) (by decide) 1 (by decide) ⟨0, 3⟩ rfl 1 0 (by decide) (by decide)

/-- C6: every sheet pixel lying outside the `T·K` placed cells — the
unassigned cells of a partial last row, or the trailing cells when
`cols > T·K` — is fully transparent `(0, 0, 0, 0)` after a valid run. -/
theorem assemble_tail_transparent
    (a : AssembleArgs) (doc : AseDoc) (ts : List AseTag)
    (hva : ValidAssemble a doc ts)
    (hW : assembleCols a * doc.width < 2 ^ 32)
    (hH : usizeDivCeil (totalImages a) (assembleCols a) * doc.height < 2 ^ 32)
    (x y : Nat)
    (hx : x < assembleCols a * doc.width)
    (hy : y < usizeDivCeil (totalImages a) (assembleCols a) * doc.height)
    (hout : assembleCols a ≤ x / doc.width ∨
      totalImages a ≤ y / doc.height * assembleCols a + x / doc.width) :
    ∃ sheet, Assemble.assemble a doc = .ok sheet ∧
      sheet.pix x y = transparentPix := by
  have hok := assemble_ok a doc ts hva
  obtain ⟨hres, hcols, hK, hval⟩ := hva
  have hlen : a.tags.length = ts.length := hres.length_eq
  have hM : ts.length * assembleK a = totalImages a := by
    rw [totalImages, hlen]
  have hHts : usizeDivCeil (ts.length * assembleK a) (assembleCols a) *
      doc.height < 2 ^ 32 := by rw [hM]; exact hH
  refine ⟨_, hok, ?_⟩
  rw [composite_pix_of_not_covers doc x y
    (planTags doc (assembleK a) (assembleCols a) 0 ts)
    (RgbaImage.new (allocDims a doc).1 (allocDims a doc).2) ?_]
  · rfl
  intro p hp
  obtain ⟨k, hk⟩ := List.mem_iff_get?.mp hp
  obtain ⟨hkM, hdx, hdy⟩ := plan_coords doc (assembleK a) (assembleCols a)
    ts hcols hW hHts k p hk
  rintro ⟨hxw, hyh, h1, h2, h3, h4⟩
  rw [hdx] at h1 h2
  rw [hdy] at h3 h4
  have hWpos : 0 < doc.width := by omega
  have hHpos : 0 < doc.height := by omega
  have hxdiv : x / doc.width = k % assembleCols a := by
    have hr : x - k % assembleCols a * doc.width < doc.width := by omega
    have hr2 : x - doc.width * (k % assembleCols a) < doc.width := by
      rw [Nat.mul_comm doc.width (k % assembleCols a)]
      exact hr
    have heq : (k % assembleCols a * doc.width +
        (x - k % assembleCols a * doc.width)) / doc.width =
        k % assembleCols a := by
      rw [Nat.mul_comm (k % assembleCols a) doc.width, Nat.mul_add_div hWpos,
        Nat.div_eq_of_lt hr2, Nat.add_zero]
    rw [show x = k % assembleCols a * doc.width +
      (x - k % assembleCols a * doc.width) by omega]
    exact heq
  have hydiv : y / doc.height = k / assembleCols a := by
    have hr : y - k / assembleCols a * doc.height < doc.height := by omega
    have hr2 : y - doc.height * (k / assembleCols a) < doc.height := by
      rw [Nat.mul_comm doc.height (k / assembleCols a)]
      exact hr
    have heq : (k / assembleCols a * doc.height +
        (y - k / assembleCols a * doc.height)) / doc.height =
        k / assembleCols a := by
      rw [Nat.mul_comm (k / assembleCols a) doc.height, Nat.mul_add_div hHpos,
        Nat.div_eq_of_lt hr2, Nat.add_zero]
    rw [show y = k / assembleCols a * doc.height +
      (y - k / assembleCols a * doc.height) by omega]
    exact heq
  have hkc : k % assembleCols a < assembleCols a := Nat.mod_lt k hcols
  have hkM' : k < totalImages a := by rwa [hM] at hkM
  have hrec : k / assembleCols a * assembleCols a + k % assembleCols a = k := by
    rw [Nat.mul_comm]
    exact Nat.div_add_mod k (assembleCols a)
  rcases hout with h | h
  · rw [hxdiv] at h
    omega
  · rw [hxdiv, hydiv] at h
    omega

theorem assemble_tail_transparent_witness :
    ∃ sheet,
      Assemble.assemble ⟨["walk"], some 3, some 2⟩ sampleDoc = .ok sheet ∧
      sheet.pix 3 2 = transparentPix :=
  assemble_tail_transparent ⟨["walk"], some 3, some 2⟩ sampleDoc [⟨0, 3⟩]
    ⟨List.Forall₂.cons rfl List.Forall₂.nil, by decide, by decide, by decide⟩
    (by decide) (by decide) 3 2 (by decide) (by decide) (by decide)

/-- C2 (amended): the sheet buffer is allocated with
`total_w = (cols·W) mod 2^32` and `total_h = (⌈T·K / cols⌉·H) mod 2^32`
(the `usize` products are cast `as u32`); whenever both products are below
`2^32` these are exactly `cols·W` and `⌈T·K / cols⌉·H`.  `K` defaults to 1
when `--number-of-frames-from-each` is absent and `cols` defaults to `T·K`
(a single row) when `--columns` is absent. -/
theorem assemble_allocDims
    (a : AssembleArgs) (doc : AseDoc)
    (hW : assembleCols a * doc.width < 2 ^ 32)
    (hH : usizeDivCeil (totalImages a) (assembleCols a) * doc.height < 2 ^ 32) :
    allocDims a doc =
      (assembleCols a * doc.width,
       usizeDivCeil (totalImages a) (assembleCols a) * doc.height) ∧
    (a.number_of_frames_from_each = none → assembleK a = 1) ∧
    (a.columns = none → assembleCols a = a.tags.length * assembleK a) ∧
    ∀ s, Assemble.assemble a doc = .ok s →
      s.w = assembleCols a * doc.width ∧
      s.h = usizeDivCeil (totalImages a) (assembleCols a) * doc.height := by
  have h1 : allocDims a doc =
      (assembleCols a * doc.width,
       usizeDivCeil (totalImages a) (assembleCols a) * doc.height) := by
    rw [allocDims, Nat.mod_eq_of_lt hW, Nat.mod_eq_of_lt hH]
  refine ⟨h1, ?_, ?_, ?_⟩
  · intro h
    rw [assembleK, h]
    rfl
  · intro h
    rw [assembleCols, h]
    rfl
  · intro s hs
    have hd := assemble_ok_dims a doc s hs
    rw [h1] at hd
    exact hd

theorem assemble_allocDims_witness :
    allocDims ⟨["walk"], some 2, some 2⟩ sampleDoc = (6, 2) ∧
    ∀ s, Assemble.assemble ⟨["walk"], some 2, some 2⟩ sampleDoc = .ok s →
      s.w = 6 ∧ s.h = 2 := by
  have h := assemble_allocDims ⟨["walk"], some 2, some 2⟩ sampleDoc
    (by decide) (by decide)
  exact ⟨h.1, h.2.2.2⟩

/-- C2 (counterexample): for `-t wide -c 2147483648` on a width-2 canvas the
claimed allocation width is `cols·W = 2^32`, but the buffer is allocated
with width `0` — the `as u32` cast wraps — and the run still succeeds. -/
theorem assemble_allocDims_claim_cex :
    (allocDims wideArgs wideDoc).1 = 0 ∧
    assembleCols wideArgs * wideDoc.width = 2 ^ 32 ∧
    (0 : Nat) ≠ 2 ^ 32 ∧
    (Assemble.assemble wideArgs wideDoc).isOk = true := by
  refine ⟨by decide, by decide, by decide, ?_⟩
  rfl

/-- C10: the sheet dimensions are computed in `usize` and cast to `u32` at
allocation; a successful run's sheet has dimensions reduced modulo `2^32`,
so when either product reaches `2^32` the allocated dimension differs from
the true product — the invocation does not fail. -/
theorem assemble_dims_wrap
    (a : AssembleArgs) (doc : AseDoc) (ts : List AseTag)
    (hva : ValidAssemble a doc ts) :
    ∃ s, Assemble.assemble a doc = .ok s ∧
      s.w = assembleCols a * doc.width % 2 ^ 32 ∧
      s.h = usizeDivCeil (totalImages a) (assembleCols a) * doc.height %
        2 ^ 32 ∧
      (2 ^ 32 ≤ assembleCols a * doc.width →
        s.w ≠ assembleCols a * doc.width) ∧
      (2 ^ 32 ≤ usizeDivCeil (totalImages a) (assembleCols a) * doc.height →
        s.h ≠ usizeDivCeil (totalImages a) (assembleCols a) * doc.height) := by
  refine ⟨_, assemble_ok a doc ts hva, ?_, ?_, ?_, ?_⟩
  · rw [composite_w]
    rfl
  · rw [composite_h]
    rfl
  · intro h
    rw [composite_w]
    show (allocDims a doc).1 ≠ _
    rw [allocDims]
    have := Nat.mod_lt (assembleCols a * doc.width)
      (show 0 < 2 ^ 32 by norm_num)
    omega
  · intro h
    rw [composite_h]
    show (allocDims a doc).2 ≠ _
    rw [allocDims]
    have := Nat.mod_lt
      (usizeDivCeil (totalImages a) (assembleCols a) * doc.height)
      (show 0 < 2 ^ 32 by norm_num)
    omega

theorem assemble_dims_wrap_witness :
    ∃ s, Assemble.assemble wideArgs wideDoc = .ok s ∧
      s.w = assembleCols wideArgs * wideDoc.width % 2 ^ 32 ∧
      s.h = usizeDivCeil (totalImages wideArgs) (assembleCols wideArgs) *
        wideDoc.height % 2 ^ 32 ∧
      (2 ^ 32 ≤ assembleCols wideArgs * wideDoc.width →
        s.w ≠ assembleCols wideArgs * wideDoc.width) ∧
      (2 ^ 32 ≤ usizeDivCeil (totalImages wideArgs) (assembleCols wideArgs) *
          wideDoc.height →
        s.h ≠ usizeDivCeil (totalImages wideArgs) (assembleCols wideArgs) *
          wideDoc.height) :=
  assemble_dims_wrap wideArgs wideDoc [⟨0, 0⟩]
    ⟨List.Forall₂.cons rfl List.Forall₂.nil, by decide, by decide, by decide⟩

/-- C4: on spec §8's S4 scenario (`walk = [0,3]`, `jump = [2,2]`, `-n 2`) the
run does fail on `jump` because the inclusive length 1 is below 2, but the
error reports `have = to - from = 0`, not the inclusive frame count 1 that
the spec (and the claim) prescribe. -/
theorem assemble_insufficient_reported_have :
    Assemble.assemble ⟨["walk", "jump"], some 2, none⟩ sampleDoc =
      .error (.insufficientFrames "jump" 0 2) ∧
    (2 : Int) - 2 + 1 = 1 ∧ (0 : Int) ≠ 1 := by
  refine ⟨?_, by decide, by decide⟩
  rfl

/-- The first insufficient tag aborts the loop, whatever comes after it. -/
lemma assembleLoop_insufficient (doc : AseDoc) (K cols : Nat)
    (bad : String) (post : List String) (t : AseTag)
    (hbad : doc.tag_by_name bad = some t)
    (hfail : i32cast t.toFrame - i32cast t.fromFrame + 1 < i32cast K) :
    ∀ (pre : List String),
      (∀ name ∈ pre, ∃ u, doc.tag_by_name name = some u ∧
        ¬ (i32cast u.toFrame - i32cast u.fromFrame + 1 < i32cast K)) →
      ∀ (tagCount : Nat) (s : Img),
        assembleLoop doc K cols tagCount (pre ++ bad :: post) s =
          .error (.insufficientFrames bad
            (i32cast t.toFrame - i32cast t.fromFrame) K) := by
  intro pre
  induction pre with
  | nil =>
    intro _ tagCount s
    rw [List.nil_append, assembleLoop]
    simp only [hbad]
    rw [if_pos hfail]
  | cons name rest ih =>
    intro hpre tagCount s
    obtain ⟨u, hname, hok⟩ := hpre name (List.mem_cons_self name rest)
    rw [List.cons_append, assembleLoop]
    simp only [hname]
    rw [if_neg hok]
    exact ih (fun n hn => hpre n (List.mem_cons_of_mem name hn))
      (tagCount + 1) _

/-- C5 (amended): resolution and validation are interleaved per tag — each
tag is resolved, validated and blitted before the next one is even looked
up.  Hence when an earlier tag resolves but fails the frame-count check, the
run reports `InsufficientFrames` for it no matter what comes later in the
tag list (in particular even when a later tag is missing). -/
theorem assemble_interleaved_validation
    (a : AssembleArgs) (doc : AseDoc)
    (pre : List String) (bad : String) (post : List String) (t : AseTag)
    (htags : a.tags = pre ++ bad :: post)
    (hcols : 0 < assembleCols a)
    (hpre : ∀ name ∈ pre, ∃ u, doc.tag_by_name name = some u ∧
      ¬ (i32cast u.toFrame - i32cast u.fromFrame + 1 <
        i32cast (assembleK a)))
    (hbad : doc.tag_by_name bad = some t)
    (hfail : i32cast t.toFrame - i32cast t.fromFrame + 1 <
      i32cast (assembleK a)) :
    Assemble.assemble a doc =
      .error (.insufficientFrames bad
        (i32cast t.toFrame - i32cast t.fromFrame) (assembleK a)) := by
  rw [Assemble.assemble, if_neg (Nat.pos_iff_ne_zero.mp hcols), htags]
  exact assembleLoop_insufficient doc (assembleK a) (assembleCols a) bad post
    t hbad hfail pre hpre 0 _

theorem assemble_interleaved_validation_witness :
    Assemble.assemble ⟨["a", "b"], some 2, none⟩ oneTagDoc =
      .error (.insufficientFrames "a" (i32cast 0 - i32cast 0) 2) :=
  assemble_interleaved_validation ⟨["a", "b"], some 2, none⟩ oneTagDoc
    [] "a" ["b"] ⟨0, 0⟩ rfl (by decide) (by simp) rfl (by decide)

/-- C5 (counterexample): with only `a = [0,0]` defined, `-t a,b -n 2` fails
with `InsufficientFrames` for the earlier tag `a`, not `TagMissing` for the
later missing tag `b` — there is no resolve-all phase before validation. -/
theorem assemble_two_phase_cex :
    Assemble.assemble ⟨["a", "b"], some 2, none⟩ oneTagDoc =
      .error (.insufficientFrames "a" 0 2) ∧
    Assemble.assemble ⟨["a", "b"], some 2, none⟩ oneTagDoc ≠
      .error (.tagMissing "b") := by
  have h : Assemble.assemble ⟨["a", "b"], some 2, none⟩ oneTagDoc =
      .error (.insufficientFrames "a" 0 2) := rfl
  refine ⟨h, ?_⟩
  rw [h]
  intro hbad
  injection hbad with h2
  exact (by decide : AsmError.insufficientFrames "a" 0 2 ≠ .tagMissing "b") h2

/-- C7 (counterexample): the parser accepts an invocation with the `--tags`
flag omitted, yielding zero tags, and core logic then runs — `assemble`
loads the document and panics with a division by zero in the layout
computation (not an argument error), and `separate` completes. -/
theorem zero_tags_reach_core_cex :
    parseTagsArg [] = .ok [] ∧
    Assemble.assemble ⟨[], none, none⟩ emptyDoc = .error .panicDivByZero ∧
    Separate.separate emptyDoc "out" (fun _ => true) [] = ([], .ok ()) :=
  ⟨rfl, rfl, rfl⟩

/-- C7 (amended): an occurrence of `--tags` with zero values is rejected at
parse time, but omitting the flag entirely parses to the empty tag list,
which reaches core logic: `assemble` without `--columns` then divides by
zero during layout computation. -/
theorem tagsArg_zero_values_rejected
    (occs : List (List String)) (h : [] ∈ occs) :
    (∃ msg, parseTagsArg occs = .error msg) ∧
    parseTagsArg [] = .ok [] ∧
    (∀ doc : AseDoc,
      Assemble.assemble ⟨[], none, none⟩ doc = .error .panicDivByZero) := by
  have hp : parseTagsArg occs =
      .error "a value is required for this argument but none was supplied" := by
    rw [parseTagsArg, if_pos (List.any_eq_true.mpr ⟨[], h, rfl⟩)]
  exact ⟨⟨_, hp⟩, rfl, fun doc => rfl⟩

theorem tagsArg_zero_values_rejected_witness :
    (∃ msg, parseTagsArg [[]] = .error msg) ∧
    parseTagsArg [] = .ok [] ∧
    (∀ doc : AseDoc,
      Assemble.assemble ⟨[], none, none⟩ doc = .error .panicDivByZero) :=
  tagsArg_zero_values_rejected [[]] (by decide)

/-- C8: convert fails with `WrongFrameCount` carrying the found frame count
exactly when the document's frame count is not 1; on a single-frame document
it encodes frame 0 to the output path. -/
theorem convert_single_frame (doc : AseDoc) (saveOk : Bool) :
    ((∃ n, Convert.convert doc saveOk = .error (.wrongFrameCount n)) ↔
      doc.num_frames ≠ 1) ∧
    (∀ n, Convert.convert doc saveOk = .error (.wrongFrameCount n) →
      n = doc.num_frames) ∧
    (doc.num_frames = 1 → saveOk = true →
      Convert.convert doc saveOk = .ok (doc.frameImage 0)) := by
  by_cases h : doc.num_frames = 1
  · have hconv : Convert.convert doc saveOk =
        if saveOk then .ok (doc.frameImage 0) else .error .saveError := by
      rw [Convert.convert, if_neg (not_not_intro h)]
    have himp : ∀ n,
        Convert.convert doc saveOk = .error (.wrongFrameCount n) → False := by
      intro n hn
      rw [hconv] at hn
      by_cases hs : saveOk = true
      · rw [if_pos hs] at hn
        cases hn
      · rw [if_neg hs] at hn
        injection hn with h2
        exact ConvError.noConfusion h2
    refine ⟨⟨?_, fun hne => absurd h hne⟩, ?_, ?_⟩
    · rintro ⟨n, hn⟩
      exact absurd hn (fun hx => himp n hx)
    · intro n hn
      exact absurd hn (fun hx => himp n hx)
    · intro _ hs
      rw [hconv, if_pos hs]
  · have hconv : Convert.convert doc saveOk =
        .error (.wrongFrameCount doc.num_frames) := by
      rw [Convert.convert, if_pos h]
    refine ⟨⟨fun _ => h, fun _ => ⟨doc.num_frames, hconv⟩⟩, ?_,
      fun h1 => absurd h1 h⟩
    intro n hn
    rw [hconv] at hn
    injection hn with h2
    injection h2 with h3
    exact h3.symm

theorem convert_single_frame_witness :
    Convert.convert emptyDoc true = .ok (emptyDoc.frameImage 0) :=
  (convert_single_frame emptyDoc true).2.2 rfl rfl

/-- C9: separate processes the tags in the user-given order, writing
`frame(tag.from)` to `<dir>/<tag>.png` for each; when a later tag fails
(missing, or its file cannot be written) the run aborts with an error while
the files written for the earlier tags remain. -/
theorem separate_spec (doc : AseDoc) (dir : String) (saveOk : String → Bool) :
    ∀ (pre : List String),
      (∀ name ∈ pre, (doc.tag_by_name name).isSome ∧
        saveOk (sepPath dir name) = true) →
      (Separate.separate doc dir saveOk pre =
        (pre.map fun name =>
          (sepPath dir name,
           doc.frameImage ((doc.tag_by_name name).getD ⟨0, 0⟩).fromFrame),
         .ok ())) ∧
      ∀ (bad : String) (post : List String),
        (doc.tag_by_name bad = none ∨
          ((doc.tag_by_name bad).isSome ∧
            saveOk (sepPath dir bad) = false)) →
        (Separate.separate doc dir saveOk (pre ++ bad :: post)).1 =
          (pre.map fun name =>
            (sepPath dir name,
             doc.frameImage ((doc.tag_by_name name).getD ⟨0, 0⟩).fromFrame)) ∧
        ∃ e, (Separate.separate doc dir saveOk (pre ++ bad :: post)).2 =
          .error e := by
  intro pre
  induction pre with
  | nil =>
    intro _
    refine ⟨rfl, ?_⟩
    intro bad post hbad
    rw [List.nil_append, List.map_nil]
    rcases hbad with hnone | ⟨hsome, hsave⟩
    · rw [Separate.separate]
      simp only [hnone]
      exact ⟨by trivial, _, rfl⟩
    · obtain ⟨t, ht⟩ := Option.isSome_iff_exists.mp hsome
      rw [Separate.separate]
      simp only [ht]
      rw [if_neg (by rw [hsave]; exact Bool.false_ne_true)]
      exact ⟨by trivial, _, rfl⟩
  | cons name rest ih =>
    intro hpre
    obtain ⟨hsome, hsave⟩ := hpre name (List.mem_cons_self name rest)
    obtain ⟨t, ht⟩ := Option.isSome_iff_exists.mp hsome
    have hpre' : ∀ n ∈ rest, (doc.tag_by_name n).isSome ∧
        saveOk (sepPath dir n) = true :=
      fun n hn => hpre n (List.mem_cons_of_mem name hn)
    obtain ⟨ihs, ihf⟩ := ih hpre'
    constructor
    · rw [Separate.separate]
      simp only [ht]
      rw [if_pos hsave, ihs, List.map_cons, ht]
      rfl
    · intro bad post hbad
      obtain ⟨ih1, ih2⟩ := ihf bad post hbad
      rw [List.cons_append, Separate.separate]
      simp only [ht]
      rw [if_pos hsave]
      constructor
      · show (sepPath dir name, doc.frameImage t.fromFrame) ::
            (Separate.separate doc dir saveOk (rest ++ bad :: post)).1 = _
        rw [ih1, List.map_cons, ht]
        rfl
      · exact ih2

theorem separate_spec_witness :
    Separate.separate sampleDoc "dir" (fun _ => true) ["walk"] =
      ([("dir/walk.png", sampleDoc.frameImage 0)], .ok ()) :=
  (separate_spec sampleDoc "dir" (fun _ => true) ["walk"] (by decide)).1
